import Mathlib

/-!
Verification of the secure-message pipeline core of `src/main.py`
(FNV-1 hash, Huffman codec over CPython's `heapq`, textbook RSA),
via a shallow embedding: Python ints become `Nat`/`Int`, byte strings
become `List Nat`, bit strings become `List Bool`, dicts become
insertion-ordered association lists, and exceptions become
`Option`/`Except`.  Loops whose variant is evident are carried in fuel
form with a fuel that provably dominates the iteration count, so every
definition is executable.
-/

namespace SistemaSeguro

/-! ### FNV-1 hash (`class FNV1Hash`) -/

structure FNV1Hash where
  FNV_prime : Nat
  FNV_offset_basis : Nat
  mask : Nat

/-- The 32-bit parameter set chosen by `FNV1Hash.__init__` for `bits=32`. -/
def fnv32 : FNV1Hash := ⟨16777619, 2166136261, 0xFFFFFFFF⟩

/-- The 64-bit parameter set chosen by `FNV1Hash.__init__` for `bits=64`. -/
def fnv64 : FNV1Hash := ⟨1099511628211, 14695981039346656037, 0xFFFFFFFFFFFFFFFF⟩

/-- `FNV1Hash.hash`: for each byte, `hash = (hash * prime) & mask` then
`hash = hash ^ byte`, starting from the offset basis.  Inputs are the
UTF-8 bytes of the message, modelled as a list of naturals. -/
def FNV1Hash.hash (f : FNV1Hash) (data : List Nat) : Nat :=
  data.foldl (fun hash_value byte => ((hash_value * f.FNV_prime) &&& f.mask) ^^^ byte)
    f.FNV_offset_basis

/-- `FNV1Hash.hash_hex`: `format(self.hash(data), 'x')`, i.e. minimal
lowercase hexadecimal. -/
def FNV1Hash.hash_hex (f : FNV1Hash) (data : List Nat) : String :=
  String.mk (Nat.toDigits 16 (f.hash data))

/-- Modelled from the spec (refinement reference for claim C5): the FNV-1
algorithm as the spec words it, with the accumulator reduced modulo
`2 ^ bits` after the multiply and the xor applied afterwards. -/
def fnv1Ref (prime offset bits : Nat) (data : List Nat) : Nat :=
  data.foldl (fun h b => ((h * prime) % 2 ^ bits) ^^^ b) offset

/-! ### RSA (`class RSA`) -/

/-- The `while b != 0: a, b = b, a % b` loop of `calcular_mcd`; the second
argument strictly decreases, so any fuel above it is never exhausted. -/
def mcdLoop : Nat → Nat → Nat → Nat
  | 0, a, _ => a
  | fuel + 1, a, b => if b = 0 then a else mcdLoop fuel b (a % b)

/-- `RSA.calcular_mcd`: Euclid's algorithm. -/
def calcular_mcd (a b : Nat) : Nat := mcdLoop (b + 1) a b

/-- `RSA.son_coprimos`. -/
def son_coprimos (a b : Nat) : Bool := calcular_mcd a b == 1

/-- `RSA.funcion_totiente_euler`. -/
def funcion_totiente_euler (p q : Nat) : Nat := (p - 1) * (q - 1)

/-- Python's inner recursive `extended_gcd` on nonnegative inputs (the
recursive call is `extended_gcd(b % a, a)`, which keeps both arguments
nonnegative and strictly decreases the first, so fuel `a + 1` suffices).
Returns `(g, x, y)` with `a*x + b*y = g`. -/
def extended_gcd : Nat → Nat → Nat → Nat × Int × Int
  | _, 0, b => (b, 0, 1)
  | 0, _ + 1, b => (b, 0, 1)
  | fuel + 1, a + 1, b =>
    let r := extended_gcd fuel (b % (a + 1)) (a + 1)
    (r.1, r.2.2 - ((b / (a + 1) : Nat) : Int) * r.2.1, r.2.1)

/-- `RSA.modular_inverse`: `x % phi` in Python is nonnegative for positive
`phi`, which is `Int.emod`; the `ValueError` branch becomes `none`. -/
def modular_inverse (e phi : Nat) : Option Nat :=
  let r := extended_gcd (e + 1) e phi
  if r.1 ≠ 1 then none else some ((r.2.1 % (phi : Int)).toNat)

/-- The `while not son_coprimos(e, phi): e += 2` search of `generar_claves`.
Successive odd candidates cover every odd residue class modulo `phi`
within `phi` steps, so the fuel `phi + 17` dominates the loop length. -/
def buscar_e (phi : Nat) : Nat → Nat → Option Nat
  | 0, _ => none
  | fuel + 1, e => if son_coprimos e phi then some e else buscar_e phi fuel (e + 2)

/-- `RSA.generar_claves`: `n = p*q`, `phi = (p-1)*(q-1)`, `e` searched from
17 upward, `d` its modular inverse; returns `((e, n), (d, n))`. -/
def generar_claves (p q : Nat) : Option ((Nat × Nat) × (Nat × Nat)) :=
  let n := p * q
  let phi_n := funcion_totiente_euler p q
  match buscar_e phi_n (phi_n + 17) 17 with
  | none => none
  | some e =>
    match modular_inverse e phi_n with
    | none => none
    | some d => some ((e, n), (d, n))

/-- The hash argument accepted by `firmar_hash`/`verificar_firma`: either an
integer or a string, the latter converted by `int(hash_value, 16)`
(modelled on plain hexadecimal digit strings). -/
inductive HashVal where
  | num (n : Nat)
  | hex (s : List Char)

def hexDigit (c : Char) : Option Nat :=
  if '0' ≤ c ∧ c ≤ '9' then some (c.toNat - 48)
  else if 'a' ≤ c ∧ c ≤ 'f' then some (c.toNat - 87)
  else if 'A' ≤ c ∧ c ≤ 'F' then some (c.toNat - 55)
  else none

def parseHex (s : List Char) : Option Nat :=
  if s.isEmpty then none
  else s.foldl (fun acc c => acc.bind fun a => (hexDigit c).map fun d => 16 * a + d)
    (some 0)

def HashVal.toNum : HashVal → Option Nat
  | .num n => some n
  | .hex s => parseHex s

/-- `RSA.firmar_hash`: raises (here: `.error`) when no private key is set;
otherwise `pow(hash_num, d, n)`, i.e. `hash_num ^ d % n` (the keys produced
by `generar_claves` always have `n > 0`). -/
def firmar_hash (clave_privada : Option (Nat × Nat)) (hash_value : HashVal) :
    Except String Nat :=
  match clave_privada with
  | none => .error "Clave privada no generada"
  | some (d, n) =>
    match hash_value.toNum with
    | none => .error "invalid literal for int() with base 16"
    | some hash_num => .ok (hash_num ^ d % n)

/-- `RSA.verificar_firma`: raises (here: `.error`) when no public key is
set; otherwise compares the hash with `pow(firma, e, n)`. -/
def verificar_firma (clave_publica : Option (Nat × Nat)) (hash_value : HashVal)
    (firma : Nat) : Except String Bool :=
  match clave_publica with
  | none => .error "Clave publica no disponible"
  | some (e, n) =>
    match hash_value.toNum with
    | none => .error "invalid literal for int() with base 16"
    | some hash_num => .ok (hash_num == firma ^ e % n)

/-! ### Huffman (`class HuffmanCompressor`)

`NodoHuffman` objects as `construir_arbol` creates them are either leaves
(symbol plus frequency, no children) or internal nodes (no symbol, both
children present), so the tree type is the tagged variant of those two
shapes.  CPython's `heapq` (`heappush`/`heappop` with `_siftdown` and
`_siftup`) is modelled verbatim on lists; its while loops are carried in
fuel form with fuel strictly dominating the iteration count (`_siftdown`
strictly decreases `pos`, `_siftup` more than doubles `pos` at each step
while it stays below `endpos`), so the fuel form computes exactly the
loop's result. -/

inductive NodoHuffman where
  | leaf (simbolo : Char) (frecuencia : Nat)
  | node (frecuencia : Nat) (izquierda derecha : NodoHuffman)
deriving DecidableEq

def NodoHuffman.frecuencia : NodoHuffman → Nat
  | .leaf _ f => f
  | .node f _ _ => f

/-- `NodoHuffman.__lt__`: comparison by frequency only. -/
def ltNodo (a b : NodoHuffman) : Bool := decide (a.frecuencia < b.frecuencia)

/-- Arbitrary default used for (never reached) out-of-range list reads. -/
def dNodo : NodoHuffman := .leaf 'A' 0

section Heapq

variable {α : Type}

/-- The while loop of CPython `_siftdown`: while `startpos < pos`, move the
parent down if `newitem` is smaller, else stop. -/
def siftdownLoop (lt : α → α → Bool) (dflt : α) (startpos : Nat) (newitem : α) :
    Nat → List α → Nat → List α × Nat
  | 0, heap, pos => (heap, pos)
  | fuel + 1, heap, pos =>
    if startpos < pos then
      let parentpos := (pos - 1) / 2
      let parent := heap.getD parentpos dflt
      if lt newitem parent then
        siftdownLoop lt dflt startpos newitem fuel (heap.set pos parent) parentpos
      else (heap, pos)
    else (heap, pos)

/-- CPython `_siftdown(heap, startpos, pos)`: run the loop, then store
`newitem` at the final position. -/
def siftdown (lt : α → α → Bool) (dflt : α) (heap : List α) (startpos pos : Nat) :
    List α :=
  let newitem := heap.getD pos dflt
  let r := siftdownLoop lt dflt startpos newitem (pos + 1) heap pos
  r.1.set r.2 newitem

/-- The while loop of CPython `_siftup`: bubble the smaller child up until a
childless position is reached. -/
def siftupLoop (lt : α → α → Bool) (dflt : α) (endpos : Nat) :
    Nat → List α → Nat → List α × Nat
  | 0, heap, pos => (heap, pos)
  | fuel + 1, heap, pos =>
    let childpos := 2 * pos + 1
    if childpos < endpos then
      let rightpos := childpos + 1
      let childpos :=
        if rightpos < endpos &&
            !(lt (heap.getD childpos dflt) (heap.getD rightpos dflt)) then rightpos
        else childpos
      siftupLoop lt dflt endpos fuel (heap.set pos (heap.getD childpos dflt)) childpos
    else (heap, pos)

/-- CPython `_siftup(heap, pos)`: run the loop, store `newitem` at the final
position, then `_siftdown` back towards `pos`. -/
def siftup (lt : α → α → Bool) (dflt : α) (heap : List α) (pos : Nat) : List α :=
  let endpos := heap.length
  let newitem := heap.getD pos dflt
  let r := siftupLoop lt dflt endpos (endpos + 1) heap pos
  siftdown lt dflt (r.1.set r.2 newitem) pos r.2

/-- CPython `heappush`: append, then `_siftdown(heap, 0, len(heap)-1)`. -/
def heappush (lt : α → α → Bool) (dflt : α) (heap : List α) (item : α) : List α :=
  siftdown lt dflt (heap ++ [item]) 0 heap.length

/-- CPython `heappop`: pop the last element; if the heap is still nonempty,
put it at the root and `_siftup`.  `none` models the `IndexError` on an
empty heap. -/
def heappop (lt : α → α → Bool) (dflt : α) (heap : List α) : Option (α × List α) :=
  match heap.getLast? with
  | none => none
  | some lastelt =>
    let rest := heap.dropLast
    if rest.isEmpty then some (lastelt, [])
    else some (rest.headD dflt, siftup lt dflt (rest.set 0 lastelt) 0)

end Heapq

/-- The insertion-ordered key list of `Counter(texto)`: first occurrences. -/
def claves (texto : List Char) : List Char :=
  texto.foldl (fun ks c => if c ∈ ks then ks else ks ++ [c]) []

/-- `Counter(texto).items()`: first-occurrence key order, with counts. -/
def frecuencias (texto : List Char) : List (Char × Nat) :=
  (claves texto).map fun c => (c, texto.count c)

/-- The `while len(heap) > 1` merge loop of `construir_arbol`; each
iteration removes two nodes and adds one, so fuel `heap.length` dominates
the iteration count.  The `none` branches of `heappop` are unreachable
because the loop guard keeps the heap nonempty. -/
def buildLoop : Nat → List NodoHuffman → List NodoHuffman
  | 0, heap => heap
  | fuel + 1, heap =>
    if heap.length ≤ 1 then heap
    else
      match heappop ltNodo dNodo heap with
      | none => heap
      | some (nodo1, h1) =>
        match heappop ltNodo dNodo h1 with
        | none => h1
        | some (nodo2, h2) =>
          buildLoop fuel
            (heappush ltNodo dNodo h2
              (.node (nodo1.frecuencia + nodo2.frecuencia) nodo1 nodo2))

/-- `HuffmanCompressor.construir_arbol`. -/
def construir_arbol (texto : List Char) : Option NodoHuffman :=
  if texto.isEmpty then none
  else
    let heap := (frecuencias texto).foldl
      (fun h sf => heappush ltNodo dNodo h (.leaf sf.1 sf.2)) []
    (buildLoop heap.length heap).head?

/-- `HuffmanCompressor.generar_codigos`: depth-first, `"0"` on the left
descent and `"1"` on the right, recorded in dict insertion order. -/
def generar_codigos : NodoHuffman → List Bool → List (Char × List Bool)
  | .leaf s _, codigo_actual => [(s, codigo_actual)]
  | .node _ izq der, codigo_actual =>
    generar_codigos izq (codigo_actual ++ [false]) ++
      generar_codigos der (codigo_actual ++ [true])

/-- Python dict lookup on an insertion-ordered association list. -/
def dictGet {κ ν : Type} [DecidableEq κ] (k : κ) : List (κ × ν) → Option ν
  | [] => none
  | (a, b) :: l => if k = a then some b else dictGet k l

/-- `int(s, 2)` on a bit string, most significant bit first. -/
def bitsToByte (bits : List Bool) : Nat :=
  bits.foldl (fun acc b => 2 * acc + if b then 1 else 0) 0

/-- The `for i in range(0, len(bits), 8)` packing loop of `comprimir`: each
8-bit group becomes one byte (a final short group, which the padding rules
out, would become one byte as in Python). -/
def pack : List Bool → List Nat
  | [] => []
  | b0 :: b1 :: b2 :: b3 :: b4 :: b5 :: b6 :: b7 :: rest =>
    bitsToByte [b0, b1, b2, b3, b4, b5, b6, b7] :: pack rest
  | bits => [bitsToByte bits]

/-- `HuffmanCompressor.comprimir`: build the tree and codes, concatenate the
per-character codes, zero-pad to a byte boundary (a padding of 8 is
normalized to 0), pack MSB-first, and prepend the padding byte. -/
def comprimir (texto : List Char) : List Nat × List (Char × List Bool) :=
  if texto.isEmpty then ([], [])
  else
    match construir_arbol texto with
    | none => ([], [])
    | some raiz =>
      let codigos := generar_codigos raiz []
      let bits := texto.foldl (fun b c => b ++ (dictGet c codigos).getD []) []
      let padding := if bits.length % 8 = 0 then 0 else 8 - bits.length % 8
      let bitsPadded := bits ++ List.replicate padding false
      (padding :: pack bitsPadded, codigos)

/-- `format(byte, '08b')` for a byte below 256: 8 bits, MSB first. -/
def byteToBits (byte : Nat) : List Bool :=
  (List.range 8).map fun i => byte.testBit (7 - i)

/-- One iteration of the decoding loop of `descomprimir`: extend the
accumulator by the next bit; when it is a key of the inverse table, emit
the symbol and reset. -/
def decodeStep (codigos_inversos : List (List Bool × Char))
    (st : List Char × List Bool) (bit : Bool) : List Char × List Bool :=
  let codigo_actual := st.2 ++ [bit]
  match dictGet codigo_actual codigos_inversos with
  | some s => (st.1 ++ [s], [])
  | none => (st.1, codigo_actual)

/-- `HuffmanCompressor.descomprimir`: header byte is the padding count,
remaining bytes unpack MSB-first, the trailing padding bits are dropped,
and the bits are matched greedily against the inverted code table
(`{v: k for k, v in ...}` keeps the last entry for a duplicated code,
hence the reversed association list). -/
def descomprimir (datos_comprimidos : List Nat)
    (codigos_huffman : List (Char × List Bool)) : List Char :=
  if datos_comprimidos.isEmpty || codigos_huffman.isEmpty then []
  else
    match datos_comprimidos with
    | [] => []
    | padding :: datos_bits =>
      let bits := datos_bits.foldl (fun acc byte => acc ++ byteToBits byte) []
      let bits := if padding > 0 then bits.take (bits.length - padding) else bits
      let codigos_inversos := (codigos_huffman.map fun kv => (kv.2, kv.1)).reverse
      (bits.foldl (decodeStep codigos_inversos) ([], [])).1

/-- The multiset of leaf symbols of a tree, in left-to-right order. -/
def hojas : NodoHuffman → List Char
  | .leaf s _ => [s]
  | .node _ l r => hojas l ++ hojas r

/-- Executable check that `a` is a prefix of `b`. -/
def esPrefijo : List Bool → List Bool → Bool
  | [], _ => true
  | _ :: _, [] => false
  | a :: as, b :: bs => (a == b) && esPrefijo as bs

/-- Unpacking a byte sequence into its bit string, MSB first per byte. -/
def unpackBits (bytes : List Nat) : List Bool := bytes.flatMap byteToBits

/-- The concatenation of the per-character codes `comprimir` emits for
`texto` before padding. -/
def codeBits (texto : List Char) : List Bool :=
  match construir_arbol texto with
  | none => []
  | some raiz => texto.flatMap fun c => (dictGet c (generar_codigos raiz [])).getD []

/-! ## Theorems -/

/-! ### FNV-1 (claim C5) -/

/-- C5: `hash` coincides with the reference FNV-1 definition (multiply
modulo `2 ^ 32`, then xor, per byte in order); the hash of the empty input
is the offset basis `2166136261`, and `hash_hex` of the empty input is
`"811c9dc5"`. -/
theorem C5_thm :
    (∀ data, fnv32.hash data = fnv1Ref 16777619 2166136261 32 data) ∧
    fnv32.hash [] = 2166136261 ∧
    fnv32.hash_hex [] = "811c9dc5" := by
  refine ⟨fun data => ?_, rfl, by decide⟩
  simp only [FNV1Hash.hash, fnv1Ref, fnv32]
  congr 1
  funext h b
  rw [show (0xFFFFFFFF : Nat) = 2 ^ 32 - 1 by norm_num,
    Nat.and_pow_two_sub_one_eq_mod]

/-! ### RSA: the Euclid loop, the extended Euclid, the modular inverse -/

theorem mcdLoop_eq_gcd : ∀ (fuel a b : Nat), b < fuel → mcdLoop fuel a b = Nat.gcd a b := by
  intro fuel
  induction fuel with
  | zero => intro a b hb; omega
  | succ f ih =>
    intro a b hb
    by_cases h0 : b = 0
    · subst h0; simp [mcdLoop]
    · rw [mcdLoop, if_neg h0,
        ih b (a % b) (lt_of_lt_of_le (Nat.mod_lt a (Nat.pos_of_ne_zero h0)) (by omega)),
        Nat.gcd_comm a b, Nat.gcd_rec b a, Nat.gcd_comm (a % b) b]

theorem calcular_mcd_eq_gcd (a b : Nat) : calcular_mcd a b = Nat.gcd a b :=
  mcdLoop_eq_gcd (b + 1) a b (Nat.lt_succ_self b)

theorem extended_gcd_spec : ∀ (fuel a b : Nat), a < fuel →
    (extended_gcd fuel a b).1 = Nat.gcd a b ∧
    (a : Int) * (extended_gcd fuel a b).2.1 + (b : Int) * (extended_gcd fuel a b).2.2
      = ((extended_gcd fuel a b).1 : Int) := by
  intro fuel
  induction fuel with
  | zero => intro a b ha; omega
  | succ f ih =>
    intro a b ha
    match a with
    | 0 => simp [extended_gcd]
    | a' + 1 =>
      have hmod : b % (a' + 1) < f := by
        have h1 : b % (a' + 1) < a' + 1 := Nat.mod_lt b (by omega)
        omega
      obtain ⟨hg, hbz⟩ := ih (b % (a' + 1)) (a' + 1) hmod
      have hdiv : ((a' + 1 : Nat) : Int) * ((b / (a' + 1) : Nat) : Int)
          + ((b % (a' + 1) : Nat) : Int) = (b : Int) := by
        exact_mod_cast Nat.div_add_mod b (a' + 1)
      refine ⟨?_, ?_⟩
      · show (extended_gcd f (b % (a' + 1)) (a' + 1)).1 = Nat.gcd (a' + 1) b
        rw [hg, Nat.gcd_rec (a' + 1) b]
      · show ((a' + 1 : Nat) : Int) * ((extended_gcd f (b % (a' + 1)) (a' + 1)).2.2
            - ((b / (a' + 1) : Nat) : Int) * (extended_gcd f (b % (a' + 1)) (a' + 1)).2.1)
            + (b : Int) * (extended_gcd f (b % (a' + 1)) (a' + 1)).2.1
          = ((extended_gcd f (b % (a' + 1)) (a' + 1)).1 : Int)
        linear_combination hbz - (extended_gcd f (b % (a' + 1)) (a' + 1)).2.1 * hdiv

theorem modular_inverse_spec {e phi d : Nat} (hphi : 0 < phi)
    (h : modular_inverse e phi = some d) :
    e * d % phi = 1 % phi ∧ Nat.gcd e phi = 1 := by
  obtain ⟨hg, hbz⟩ := extended_gcd_spec (e + 1) e phi (Nat.lt_succ_self e)
  simp only [modular_inverse, ite_not] at h
  by_cases h1 : (extended_gcd (e + 1) e phi).1 = 1
  · rw [if_pos h1] at h
    refine ⟨?_, hg ▸ h1⟩
    obtain rfl : ((extended_gcd (e + 1) e phi).2.1 % (phi : Int)).toNat = d :=
      Option.some.inj h
    set x := (extended_gcd (e + 1) e phi).2.1 with hx
    set y := (extended_gcd (e + 1) e phi).2.2 with hy
    have hbz1 : (e : Int) * x + (phi : Int) * y = 1 := by
      rw [h1] at hbz
      exact_mod_cast hbz
    have hphiz : ((phi : Int)) ≠ 0 := by positivity
    have hnn : 0 ≤ x % (phi : Int) := Int.emod_nonneg x hphiz
    have hcast : (((x % (phi : Int)).toNat : Nat) : Int) = x % (phi : Int) :=
      Int.toNat_of_nonneg hnn
    have hmod : Int.ModEq (phi : Int) ((e : Int) * (x % (phi : Int))) 1 := by
      have h2 : Int.ModEq (phi : Int) (x % (phi : Int)) x :=
        Int.emod_emod_of_dvd x dvd_rfl
      calc (e : Int) * (x % (phi : Int))
          ≡ (e : Int) * x [ZMOD (phi : Int)] := h2.mul_left _
        _ ≡ 1 [ZMOD (phi : Int)] := by
            rw [Int.modEq_iff_dvd]
            exact ⟨y, by linarith⟩
    have : ((e * (x % (phi : Int)).toNat : Nat) : Int) % (phi : Int)
        = ((1 : Nat) : Int) % (phi : Int) := by
      push_cast [hcast]
      exact hmod
    rw [← Int.natCast_mod, ← Int.natCast_mod] at this
    exact_mod_cast this
  · rw [if_neg h1] at h
    exact absurd h (by simp)

/-- Fermat's little theorem in the exponent form RSA needs: for a prime `p`,
`a ^ (k * (p - 1) + 1) ≡ a` modulo `p` for every `a`, including multiples
of `p`. -/
theorem pow_mul_totient_add_one {p : Nat} (hp : p.Prime) (a k : Nat) :
    a ^ (k * (p - 1) + 1) ≡ a [MOD p] := by
  by_cases hdvd : p ∣ a
  · have h0 : a ≡ 0 [MOD p] := Nat.modEq_zero_iff_dvd.2 hdvd
    calc a ^ (k * (p - 1) + 1)
        ≡ 0 ^ (k * (p - 1) + 1) [MOD p] := h0.pow _
      _ = 0 := by simp
      _ ≡ a [MOD p] := h0.symm
  · have hco : a.Coprime p := ((Nat.Prime.coprime_iff_not_dvd hp).2 hdvd).symm
    have heuler := Nat.ModEq.pow_totient hco
    rw [Nat.totient_prime hp] at heuler
    calc a ^ (k * (p - 1) + 1)
        = (a ^ (p - 1)) ^ k * a := by
          rw [← pow_mul, ← pow_succ, Nat.mul_comm (p - 1) k]
      _ ≡ 1 ^ k * a [MOD p] := (heuler.pow k).mul_right a
      _ = a := by ring

/-- The RSA signature algebra: with `e * d ≡ 1` modulo `(p-1)(q-1)` for
distinct primes `p`, `q`, raising any `h < p*q` to `d` and then to `e`
modulo `p*q` recovers `h`. -/
theorem rsa_round {p q : Nat} (hp : p.Prime) (hq : q.Prime) (hne : p ≠ q)
    {e d : Nat} (hed : e * d % ((p - 1) * (q - 1)) = 1 % ((p - 1) * (q - 1)))
    (h : Nat) (hh : h < p * q) :
    (h ^ d % (p * q)) ^ e % (p * q) = h := by
  have hp2 := hp.two_le
  have hq2 := hq.two_le
  have hphi2 : 2 ≤ (p - 1) * (q - 1) := by
    have h1 : 1 ≤ p - 1 := by omega
    have h2 : 1 ≤ q - 1 := by omega
    have h3 : 2 ≤ p - 1 ∨ 2 ≤ q - 1 := by omega
    rcases h3 with h3 | h3 <;> nlinarith
  set phi := (p - 1) * (q - 1) with hphidef
  have hed1 : e * d % phi = 1 := by
    rw [hed]; exact Nat.mod_eq_of_lt (by omega)
  have hsplit : e * d = (e * d / phi) * phi + 1 := by
    conv_lhs => rw [← Nat.div_add_mod (e * d) phi]
    rw [hed1]
    ring
  set k := e * d / phi with hk
  have hmodp : h ^ (e * d) ≡ h [MOD p] := by
    have : h ^ (e * d) = h ^ ((k * (q - 1)) * (p - 1) + 1) := by
      rw [hsplit]; ring_nf
    rw [this]
    exact pow_mul_totient_add_one hp h (k * (q - 1))
  have hmodq : h ^ (e * d) ≡ h [MOD q] := by
    have : h ^ (e * d) = h ^ ((k * (p - 1)) * (q - 1) + 1) := by
      rw [hsplit]; ring_nf
    rw [this]
    exact pow_mul_totient_add_one hq h (k * (p - 1))
  have hco : p.Coprime q := (Nat.coprime_primes hp hq).2 hne
  have hmodn : h ^ (e * d) ≡ h [MOD p * q] :=
    (Nat.modEq_and_modEq_iff_modEq_mul hco).1 ⟨hmodp, hmodq⟩
  calc (h ^ d % (p * q)) ^ e % (p * q)
      = (h ^ d) ^ e % (p * q) := by rw [← Nat.pow_mod]
    _ = h ^ (e * d) % (p * q) := by rw [← pow_mul, Nat.mul_comm d e]
    _ = h % (p * q) := hmodn
    _ = h := Nat.mod_eq_of_lt hh

theorem buscar_e_mem : ∀ (fuel e0 e phi : Nat), buscar_e phi fuel e0 = some e →
    son_coprimos e phi = true := by
  intro fuel
  induction fuel with
  | zero => intro e0 e phi h; exact absurd h (by simp [buscar_e])
  | succ f ih =>
    intro e0 e phi h
    rw [buscar_e] at h
    by_cases hc : son_coprimos e0 phi
    · rw [if_pos hc] at h; exact (Option.some.inj h) ▸ hc
    · rw [if_neg hc] at h; exact ih (e0 + 2) e phi h

/-- What a successful `generar_claves p q = some ((e, n), (d, n))` pins
down: `n = p*q` and `e*d ≡ 1` modulo `(p-1)*(q-1)`. -/
theorem generar_claves_spec {p q e n d : Nat} (hphi : 0 < (p - 1) * (q - 1))
    (hgen : generar_claves p q = some ((e, n), (d, n))) :
    n = p * q ∧ e * d % ((p - 1) * (q - 1)) = 1 % ((p - 1) * (q - 1)) := by
  simp only [generar_claves, funcion_totiente_euler] at hgen
  rcases hb : buscar_e ((p - 1) * (q - 1)) ((p - 1) * (q - 1) + 17) 17 with _ | e0
  · simp only [hb] at hgen
    exact Option.noConfusion hgen
  · simp only [hb] at hgen
    rcases hm : modular_inverse e0 ((p - 1) * (q - 1)) with _ | d0
    · simp only [hm] at hgen
      exact Option.noConfusion hgen
    · simp only [hm, Option.some.injEq, Prod.mk.injEq] at hgen
      obtain ⟨⟨rfl, hn⟩, rfl, -⟩ := hgen
      exact ⟨hn.symm, (modular_inverse_spec hphi hm).1⟩

/-! ### Claims C2, C4, C9 -/

/-- C2: for every keypair produced by `generar_claves p q` with `p` and `q`
distinct primes (in particular the defaults 61 and 53), and for every hash
value `h` below `n`, verifying the signature of `h` returns `True`. -/
theorem C2_thm {p q e n d : Nat} (hp : p.Prime) (hq : q.Prime) (hne : p ≠ q)
    (hgen : generar_claves p q = some ((e, n), (d, n)))
    (h : Nat) (hh : h < n) :
    (firmar_hash (some (d, n)) (.num h)).bind
      (fun firma => verificar_firma (some (e, n)) (.num h) firma) = .ok true := by
  have hphi : 0 < (p - 1) * (q - 1) := by
    have := hp.two_le; have := hq.two_le
    exact Nat.mul_pos (by omega) (by omega)
  obtain ⟨hn, hed⟩ := generar_claves_spec hphi hgen
  subst hn
  show Except.ok (h == (h ^ d % (p * q)) ^ e % (p * q)) = Except.ok true
  rw [rsa_round hp hq hne hed h hh]
  simp

/-- Witness for C2 at the default primes: `n = 3233`, `e = 17`, `d = 2753`,
`h = 65`. -/
theorem C2_wit :
    (firmar_hash (some (2753, 3233)) (.num 65)).bind
      (fun firma => verificar_firma (some (17, 3233)) (.num 65) firma) = .ok true :=
  C2_thm (p := 61) (q := 53) (by norm_num) (by norm_num) (by norm_num)
    (by decide) 65 (by norm_num)

/-- C4 counterexample: with the keypair generated from the default primes,
the hashes `0` and `3233` differ, yet verifying `0` against a signature of
`3233` returns `True` (the claim quantifies over all nonnegative hashes,
but the signature map only separates hashes below `n`). -/
theorem C4_cex :
    generar_claves 61 53 = some ((17, 3233), (2753, 3233)) ∧
    (0 : Nat) ≠ 3233 ∧
    (firmar_hash (some (2753, 3233)) (.num 3233)).bind
      (fun firma => verificar_firma (some (17, 3233)) (.num 0) firma) = .ok true := by
  refine ⟨by decide, by decide, ?_⟩
  show Except.ok ((0 : Nat) == (3233 ^ 2753 % 3233) ^ 17 % 3233) = Except.ok true
  have h1 : 3233 ^ 2753 % 3233 = 0 := by
    rw [Nat.pow_mod]
    norm_num
  rw [h1]
  norm_num

/-- C4 (amended): for every keypair produced by `generar_claves` from
distinct primes, and all hashes `h ≠ h2` both below `n`, verifying `h`
against a signature of `h2` returns `False`. -/
theorem C4_thm {p q e n d : Nat} (hp : p.Prime) (hq : q.Prime) (hne : p ≠ q)
    (hgen : generar_claves p q = some ((e, n), (d, n)))
    (h h2 : Nat) (hh : h < n) (hh2 : h2 < n) (hneq : h ≠ h2) :
    (firmar_hash (some (d, n)) (.num h2)).bind
      (fun firma => verificar_firma (some (e, n)) (.num h) firma) = .ok false := by
  have hphi : 0 < (p - 1) * (q - 1) := by
    have := hp.two_le; have := hq.two_le
    exact Nat.mul_pos (by omega) (by omega)
  obtain ⟨hn, hed⟩ := generar_claves_spec hphi hgen
  subst hn
  show Except.ok (h == (h2 ^ d % (p * q)) ^ e % (p * q)) = Except.ok false
  rw [rsa_round hp hq hne hed h2 hh2]
  simp [hneq]

/-- Witness for C4 (amended) at the default keypair with `h = 1`, `h2 = 2`. -/
theorem C4_wit :
    (firmar_hash (some (2753, 3233)) (.num 2)).bind
      (fun firma => verificar_firma (some (17, 3233)) (.num 1) firma) = .ok false :=
  C4_thm (p := 61) (q := 53) (by norm_num) (by norm_num) (by norm_num)
    (by decide) 1 2 (by norm_num) (by norm_num) (by norm_num)

/-- C9: `firmar_hash` fails with the no-private-key error exactly when no
private key is set, `verificar_firma` fails with the no-public-key error
exactly when no public key is set, and with the key set and a hash argument
that is an integer or a valid hexadecimal string both succeed (returning
the modular power, resp. the comparison result). -/
theorem C9_thm (priv pub : Option (Nat × Nat)) (hv : HashVal) (firma : Nat) :
    (firmar_hash priv hv = .error "Clave privada no generada" ↔ priv = none) ∧
    (verificar_firma pub hv firma = .error "Clave publica no disponible" ↔ pub = none) ∧
    (∀ d n m, hv.toNum = some m → firmar_hash (some (d, n)) hv = .ok (m ^ d % n)) ∧
    (∀ e n m, hv.toNum = some m →
      verificar_firma (some (e, n)) hv firma = .ok (m == firma ^ e % n)) := by
  refine ⟨?_, ?_, ?_, ?_⟩
  · rcases priv with _ | ⟨d, n⟩
    · simp [firmar_hash]
    · simp only [firmar_hash]
      rcases hv.toNum with _ | m <;> simp
  · rcases pub with _ | ⟨e, n⟩
    · simp [verificar_firma]
    · simp only [verificar_firma]
      rcases hv.toNum with _ | m <;> simp
  · intro d n m hm
    simp [firmar_hash, hm]
  · intro e n m hm
    simp [verificar_firma, hm]

/-- Witness for C9: a set private key and an integer hash argument sign
without error. -/
theorem C9_wit : firmar_hash (some (3, 10)) (.num 5) = .ok (5 ^ 3 % 10) :=
  (C9_thm (some (3, 10)) (some (3, 10)) (.num 5) 0).2.2.1 3 10 5 rfl

/-! ### The heap operations permute and preserve length

The only facts the Huffman claims need about CPython's heap are that
`heappush heap x` is a permutation of `x :: heap` and that `heappop`
removes exactly the element it returns; the comparison function never
matters for those. -/

theorem count_set {α : Type} [DecidableEq α] :
    ∀ (l : List α) (i : Nat) (v dflt b : α), i < l.length →
      (l.set i v).count b + (if l.getD i dflt = b then 1 else 0)
        = l.count b + (if v = b then 1 else 0) := by
  intro l
  induction l with
  | nil => intro i v dflt b hi; simp at hi
  | cons x t ih =>
    intro i v dflt b hi
    cases i with
    | zero =>
      simp only [List.set_cons_zero, List.getD_cons_zero, List.count_cons, beq_iff_eq]
      omega
    | succ i' =>
      have hi' : i' < t.length := by simpa using hi
      have := ih i' v dflt b hi'
      simp only [List.set_cons_succ, List.getD_cons_succ, List.count_cons, beq_iff_eq]
      omega

theorem set_getD_self {α : Type} :
    ∀ (l : List α) (i : Nat) (d : α), i < l.length → l.set i (l.getD i d) = l := by
  intro l
  induction l with
  | nil => intro i d hi; simp at hi
  | cons x t ih =>
    intro i d hi
    cases i with
    | zero => simp
    | succ i' =>
      have hi' : i' < t.length := by simpa using hi
      show x :: t.set i' (t.getD i' d) = x :: t
      rw [ih i' d hi']

theorem set_set_perm {α : Type} [DecidableEq α] (l : List α) (i j : Nat) (x dflt : α)
    (hi : i < l.length) (hj : j < l.length) (hij : i ≠ j) :
    ((l.set i (l.getD j dflt)).set j x).Perm (l.set i x) := by
  rw [List.perm_iff_count]
  intro b
  have hjset : j < (l.set i (l.getD j dflt)).length := by simpa using hj
  have h4 : (l.set i (l.getD j dflt)).getD j dflt = l.getD j dflt :=
    calc (l.set i (l.getD j dflt)).getD j dflt
        = (l.set i (l.getD j dflt))[j] := List.getD_eq_getElem _ dflt hjset
      _ = l[j] := List.getElem_set_ne hij _
      _ = l.getD j dflt := (List.getD_eq_getElem l dflt hj).symm
  have h1 := count_set (l.set i (l.getD j dflt)) j x dflt b hjset
  have h2 := count_set l i (l.getD j dflt) dflt b hi
  have h3 := count_set l i x dflt b hi
  rw [h4] at h1
  omega

theorem siftdownLoop_spec {α : Type} [DecidableEq α] (lt : α → α → Bool) (dflt : α)
    (startpos : Nat) (newitem : α) :
    ∀ (fuel : Nat) (heap : List α) (pos : Nat), pos < heap.length →
      (siftdownLoop lt dflt startpos newitem fuel heap pos).1.length = heap.length ∧
      (siftdownLoop lt dflt startpos newitem fuel heap pos).2 < heap.length ∧
      ((siftdownLoop lt dflt startpos newitem fuel heap pos).1.set
          (siftdownLoop lt dflt startpos newitem fuel heap pos).2 newitem).Perm
        (heap.set pos newitem) := by
  intro fuel
  induction fuel with
  | zero => intro heap pos hpos; exact ⟨rfl, hpos, List.Perm.refl _⟩
  | succ f ih =>
    intro heap pos hpos
    simp only [siftdownLoop]
    split
    · split
      · next h1 h2 =>
        have hppos : (pos - 1) / 2 < heap.length := by
          have : (pos - 1) / 2 ≤ pos - 1 := Nat.div_le_self _ _
          omega
        have hset : (heap.set pos (heap.getD ((pos - 1) / 2) dflt)).length
            = heap.length := by simp
        obtain ⟨hl, hp2, hperm⟩ :=
          ih (heap.set pos (heap.getD ((pos - 1) / 2) dflt)) ((pos - 1) / 2)
            (by omega)
        rw [hset] at hl hp2
        refine ⟨hl, hp2, hperm.trans ?_⟩
        exact set_set_perm heap pos ((pos - 1) / 2) newitem dflt hpos hppos (by omega)
      · exact ⟨rfl, hpos, List.Perm.refl _⟩
    · exact ⟨rfl, hpos, List.Perm.refl _⟩

theorem siftdown_spec {α : Type} [DecidableEq α] (lt : α → α → Bool) (dflt : α)
    (heap : List α) (startpos pos : Nat) (hpos : pos < heap.length) :
    (siftdown lt dflt heap startpos pos).length = heap.length ∧
    (siftdown lt dflt heap startpos pos).Perm heap := by
  obtain ⟨hl, hp, hperm⟩ :=
    siftdownLoop_spec lt dflt startpos (heap.getD pos dflt) (pos + 1) heap pos hpos
  constructor
  · simp only [siftdown]
    rw [List.length_set, hl]
  · simp only [siftdown]
    refine hperm.trans ?_
    rw [set_getD_self heap pos dflt hpos]

theorem siftupLoop_spec {α : Type} [DecidableEq α] (lt : α → α → Bool) (dflt : α)
    (endpos : Nat) (x : α) :
    ∀ (fuel : Nat) (heap : List α) (pos : Nat), pos < heap.length →
      heap.length = endpos →
      (siftupLoop lt dflt endpos fuel heap pos).1.length = heap.length ∧
      (siftupLoop lt dflt endpos fuel heap pos).2 < heap.length ∧
      ((siftupLoop lt dflt endpos fuel heap pos).1.set
          (siftupLoop lt dflt endpos fuel heap pos).2 x).Perm
        (heap.set pos x) := by
  intro fuel
  induction fuel with
  | zero => intro heap pos hpos hend; exact ⟨rfl, hpos, List.Perm.refl _⟩
  | succ f ih =>
    intro heap pos hpos hend
    simp only [siftupLoop]
    split
    · next h1 =>
      split
      · next h2 =>
        rw [Bool.and_eq_true] at h2
        have hclt : 2 * pos + 1 + 1 < heap.length := by
          have := of_decide_eq_true h2.1
          omega
        have hset : (heap.set pos (heap.getD (2 * pos + 1 + 1) dflt)).length
            = heap.length := by simp
        obtain ⟨hl, hp2, hperm⟩ :=
          ih (heap.set pos (heap.getD (2 * pos + 1 + 1) dflt)) (2 * pos + 1 + 1)
            (by omega) (by omega)
        rw [hset] at hl hp2
        refine ⟨hl, hp2, hperm.trans ?_⟩
        exact set_set_perm heap pos (2 * pos + 1 + 1) x dflt hpos hclt (by omega)
      · next h2 =>
        have hclt : 2 * pos + 1 < heap.length := by omega
        have hset : (heap.set pos (heap.getD (2 * pos + 1) dflt)).length
            = heap.length := by simp
        obtain ⟨hl, hp2, hperm⟩ :=
          ih (heap.set pos (heap.getD (2 * pos + 1) dflt)) (2 * pos + 1)
            (by omega) (by omega)
        rw [hset] at hl hp2
        refine ⟨hl, hp2, hperm.trans ?_⟩
        exact set_set_perm heap pos (2 * pos + 1) x dflt hpos hclt (by omega)
    · exact ⟨rfl, hpos, List.Perm.refl _⟩

theorem siftup_spec {α : Type} [DecidableEq α] (lt : α → α → Bool) (dflt : α)
    (heap : List α) (pos : Nat) (hpos : pos < heap.length) :
    (siftup lt dflt heap pos).length = heap.length ∧
    (siftup lt dflt heap pos).Perm heap := by
  obtain ⟨hl, hp, hperm⟩ :=
    siftupLoop_spec lt dflt heap.length (heap.getD pos dflt)
      (heap.length + 1) heap pos hpos rfl
  set r := siftupLoop lt dflt heap.length (heap.length + 1) heap pos with hr
  have hlset : (r.1.set r.2 (heap.getD pos dflt)).length = heap.length := by
    rw [List.length_set, hl]
  obtain ⟨hdl, hdp⟩ :=
    siftdown_spec lt dflt (r.1.set r.2 (heap.getD pos dflt)) pos r.2 (by omega)
  constructor
  · show (siftdown lt dflt (r.1.set r.2 (heap.getD pos dflt)) pos r.2).length
        = heap.length
    rw [hdl, hlset]
  · show (siftdown lt dflt (r.1.set r.2 (heap.getD pos dflt)) pos r.2).Perm heap
    refine hdp.trans (hperm.trans ?_)
    rw [set_getD_self heap pos dflt hpos]

theorem heappush_spec {α : Type} [DecidableEq α] (lt : α → α → Bool) (dflt : α)
    (heap : List α) (item : α) :
    (heappush lt dflt heap item).length = heap.length + 1 ∧
    (heappush lt dflt heap item).Perm (item :: heap) := by
  have hpos : heap.length < (heap ++ [item]).length := by simp
  obtain ⟨hl, hperm⟩ := siftdown_spec lt dflt (heap ++ [item]) 0 heap.length hpos
  refine ⟨by rw [heappush, hl]; simp, ?_⟩
  rw [heappush]
  exact hperm.trans (List.perm_append_singleton item heap)

theorem heappop_spec {α : Type} [DecidableEq α] (lt : α → α → Bool) (dflt : α)
    (heap : List α) (hne : heap ≠ []) :
    ∃ r h2, heappop lt dflt heap = some (r, h2) ∧
      heap.Perm (r :: h2) ∧ h2.length + 1 = heap.length := by
  rcases List.eq_nil_or_concat heap with rfl | ⟨l, a, rfl⟩
  · exact absurd rfl hne
  · rw [List.concat_eq_append]
    rw [heappop, List.getLast?_concat, List.dropLast_concat]
    cases l with
    | nil => exact ⟨a, [], by simp, List.Perm.refl _, by simp⟩
    | cons r0 rt =>
      have hset : ((r0 :: rt).set 0 a) = a :: rt := rfl
      have hpos : (0 : Nat) < (a :: rt).length := by simp
      obtain ⟨hl, hperm⟩ := siftup_spec lt dflt (a :: rt) 0 hpos
      refine ⟨r0, siftup lt dflt (a :: rt) 0, by simp [hset], ?_, by simp [hl]⟩
      have h1 : (r0 :: rt) ++ [a] = r0 :: (rt ++ [a]) := rfl
      rw [h1]
      refine List.Perm.cons r0 ?_
      exact (List.perm_append_singleton a rt).trans hperm.symm

/-! ### The tree built by `construir_arbol` holds exactly the distinct
symbols of the text as leaves -/

theorem buildLoop_flatMap : ∀ (fuel : Nat) (heap : List NodoHuffman),
    ((buildLoop fuel heap).flatMap hojas).Perm (heap.flatMap hojas) := by
  intro fuel
  induction fuel with
  | zero => intro heap; exact List.Perm.refl _
  | succ f ih =>
    intro heap
    rw [buildLoop]
    split
    · exact List.Perm.refl _
    · next hlen =>
      have hne : heap ≠ [] := by
        intro h
        rw [h] at hlen
        simp at hlen
      obtain ⟨r1, h1, hpop1, hperm1, hlen1⟩ := heappop_spec ltNodo dNodo heap hne
      have hne1 : h1 ≠ [] := by
        intro h
        rw [h] at hlen1
        simp at hlen1
        omega
      obtain ⟨r2, h2, hpop2, hperm2, hlen2⟩ := heappop_spec ltNodo dNodo h1 hne1
      simp only [hpop1, hpop2]
      refine (ih _).trans ?_
      have hpush := (heappush_spec ltNodo dNodo h2
        (.node (r1.frecuencia + r2.frecuencia) r1 r2)).2
      refine (hpush.flatMap_right hojas).trans ?_
      have hstep : ((NodoHuffman.node (r1.frecuencia + r2.frecuencia) r1 r2 :: h2).flatMap
          hojas) = hojas r1 ++ (hojas r2 ++ h2.flatMap hojas) := by
        rw [List.flatMap_cons]
        show (hojas r1 ++ hojas r2) ++ h2.flatMap hojas = _
        rw [List.append_assoc]
      rw [hstep]
      refine (List.Perm.append_left (hojas r1) (hperm2.flatMap_right hojas).symm).trans ?_
      exact (hperm1.flatMap_right hojas).symm

theorem buildLoop_length : ∀ (fuel : Nat) (heap : List NodoHuffman),
    1 ≤ heap.length → heap.length ≤ fuel + 1 → (buildLoop fuel heap).length = 1 := by
  intro fuel
  induction fuel with
  | zero =>
    intro heap hge hle
    show heap.length = 1
    omega
  | succ f ih =>
    intro heap hge hle
    rw [buildLoop]
    split
    · next hle1 => omega
    · next hlen =>
      have hne : heap ≠ [] := by
        intro h
        rw [h] at hlen
        simp at hlen
      obtain ⟨r1, h1, hpop1, hperm1, hlen1⟩ := heappop_spec ltNodo dNodo heap hne
      have hne1 : h1 ≠ [] := by
        intro h
        rw [h] at hlen1
        simp at hlen1
        omega
      obtain ⟨r2, h2, hpop2, hperm2, hlen2⟩ := heappop_spec ltNodo dNodo h1 hne1
      simp only [hpop1, hpop2]
      have hpl := (heappush_spec ltNodo dNodo h2
        (.node (r1.frecuencia + r2.frecuencia) r1 r2)).1
      exact ih _ (by omega) (by omega)

theorem claves_aux_mem : ∀ (l acc : List Char) (c : Char),
    c ∈ l.foldl (fun ks x => if x ∈ ks then ks else ks ++ [x]) acc ↔
      c ∈ acc ∨ c ∈ l := by
  intro l
  induction l with
  | nil => intro acc c; simp
  | cons x t ih =>
    intro acc c
    rw [List.foldl_cons, ih]
    by_cases hx : x ∈ acc
    · rw [if_pos hx]
      constructor
      · rintro (h | h)
        · exact Or.inl h
        · exact Or.inr (List.mem_cons_of_mem x h)
      · rintro (h | h)
        · exact Or.inl h
        · rcases List.mem_cons.mp h with rfl | h
          · exact Or.inl hx
          · exact Or.inr h
    · rw [if_neg hx]
      constructor
      · rintro (h | h)
        · rcases List.mem_append.mp h with h | h
          · exact Or.inl h
          · rcases List.mem_singleton.mp h with rfl
            exact Or.inr (List.mem_cons_self _ _)
        · exact Or.inr (List.mem_cons_of_mem x h)
      · rintro (h | h)
        · exact Or.inl (List.mem_append.mpr (Or.inl h))
        · rcases List.mem_cons.mp h with rfl | h
          · exact Or.inl (List.mem_append.mpr (Or.inr (List.mem_singleton.mpr rfl)))
          · exact Or.inr h

theorem claves_aux_nodup : ∀ (l acc : List Char), acc.Nodup →
    (l.foldl (fun ks x => if x ∈ ks then ks else ks ++ [x]) acc).Nodup := by
  intro l
  induction l with
  | nil => intro acc h; exact h
  | cons x t ih =>
    intro acc h
    rw [List.foldl_cons]
    by_cases hx : x ∈ acc
    · rw [if_pos hx]; exact ih acc h
    · rw [if_neg hx]
      refine ih _ ?_
      rw [List.nodup_append]
      exact ⟨h, List.nodup_singleton x,
        fun a ha hb => hx ((List.mem_singleton.mp hb) ▸ ha)⟩

theorem mem_claves (texto : List Char) (c : Char) : c ∈ claves texto ↔ c ∈ texto := by
  rw [claves, claves_aux_mem]
  simp

theorem claves_nodup (texto : List Char) : (claves texto).Nodup :=
  claves_aux_nodup texto [] List.nodup_nil

theorem claves_ne_nil {texto : List Char} (h : texto ≠ []) : claves texto ≠ [] := by
  cases texto with
  | nil => exact absurd rfl h
  | cons x t =>
    intro hc
    have hx := (mem_claves (x :: t) x).mpr (List.mem_cons_self x t)
    rw [hc] at hx
    exact absurd hx (List.not_mem_nil x)

theorem frecuencias_map_fst (texto : List Char) :
    (frecuencias texto).map Prod.fst = claves texto := by
  rw [frecuencias, List.map_map]
  exact List.map_id _

theorem heapify_spec : ∀ (l : List (Char × Nat)) (h : List NodoHuffman),
    ((l.foldl (fun h sf => heappush ltNodo dNodo h (.leaf sf.1 sf.2)) h).flatMap
        hojas).Perm (h.flatMap hojas ++ l.map Prod.fst) ∧
    (l.foldl (fun h sf => heappush ltNodo dNodo h (.leaf sf.1 sf.2)) h).length
      = h.length + l.length := by
  intro l
  induction l with
  | nil => intro h; exact ⟨by simp, by simp⟩
  | cons sf t ih =>
    intro h
    rw [List.foldl_cons]
    obtain ⟨ihp, ihl⟩ := ih (heappush ltNodo dNodo h (.leaf sf.1 sf.2))
    obtain ⟨hpl, hpp⟩ := heappush_spec ltNodo dNodo h (.leaf sf.1 sf.2)
    constructor
    · refine ihp.trans ?_
      refine (List.Perm.append_right (t.map Prod.fst) (hpp.flatMap_right hojas)).trans ?_
      show (sf.1 :: h.flatMap hojas) ++ t.map Prod.fst |>.Perm
        (h.flatMap hojas ++ sf.1 :: t.map Prod.fst)
      exact List.perm_middle.symm
    · rw [ihl, hpl]
      simp [Nat.add_assoc, Nat.add_comm 1 t.length]

theorem construir_arbol_spec {texto : List Char} (hne : texto ≠ []) :
    ∃ raiz, construir_arbol texto = some raiz ∧ (hojas raiz).Perm (claves texto) := by
  have hie : texto.isEmpty = false := by
    cases texto with
    | nil => exact absurd rfl hne
    | cons x t => rfl
  obtain ⟨hperm0, hlen0⟩ := heapify_spec (frecuencias texto) []
  set heap := (frecuencias texto).foldl
    (fun h sf => heappush ltNodo dNodo h (.leaf sf.1 sf.2)) [] with hheap
  have hlenf : (frecuencias texto).length = (claves texto).length := by
    simp [frecuencias]
  have hcne := claves_ne_nil hne
  have hclen : 1 ≤ (claves texto).length := by
    cases hcx : claves texto with
    | nil => exact absurd hcx hcne
    | cons a b => simp
  have hl1 : heap.length = (claves texto).length := by
    rw [hlen0, hlenf]
    simp
  have hbl := buildLoop_length heap.length heap (by omega) (by omega)
  obtain ⟨raiz, hraiz⟩ := List.length_eq_one.mp hbl
  refine ⟨raiz, ?_, ?_⟩
  · rw [construir_arbol, if_neg (by simp [hie])]
    show (buildLoop heap.length heap).head? = some raiz
    rw [hraiz]
    rfl
  · have hflat := buildLoop_flatMap heap.length heap
    rw [hraiz] at hflat
    have hfr : (hojas raiz).Perm (heap.flatMap hojas) := by simpa using hflat
    have h2 : ([] : List NodoHuffman).flatMap hojas ++ (frecuencias texto).map Prod.fst
        = claves texto := by
      simp [frecuencias_map_fst]
    rw [h2] at hperm0
    exact hfr.trans hperm0

/-! ### The generated code table: keys, shapes, absence of shared
prefixes -/

theorem generar_codigos_keys : ∀ (t : NodoHuffman) (cur : List Bool),
    (generar_codigos t cur).map Prod.fst = hojas t := by
  intro t
  induction t with
  | leaf s f => intro cur; rfl
  | node f l r ihl ihr =>
    intro cur
    simp [generar_codigos, hojas, ihl, ihr]

theorem generar_codigos_extend : ∀ (t : NodoHuffman) (cur : List Bool)
    (p : Char × List Bool), p ∈ generar_codigos t cur → ∃ s, p.2 = cur ++ s := by
  intro t
  induction t with
  | leaf s f =>
    intro cur p hp
    rcases List.mem_singleton.mp hp with rfl
    exact ⟨[], by simp⟩
  | node f l r ihl ihr =>
    intro cur p hp
    rcases List.mem_append.mp hp with h | h
    · obtain ⟨s, hs⟩ := ihl _ p h
      refine ⟨false :: s, ?_⟩
      rw [hs, List.append_assoc]
      rfl
    · obtain ⟨s, hs⟩ := ihr _ p h
      refine ⟨true :: s, ?_⟩
      rw [hs, List.append_assoc]
      rfl

theorem generar_codigos_ne_nil : ∀ (t : NodoHuffman) (cur : List Bool),
    generar_codigos t cur ≠ [] := by
  intro t
  induction t with
  | leaf s f => intro cur; simp [generar_codigos]
  | node f l r ihl ihr =>
    intro cur h
    rw [generar_codigos] at h
    exact ihl _ (List.append_eq_nil.mp h).1

theorem esPrefijo_iff : ∀ (a b : List Bool), esPrefijo a b = true ↔ ∃ s, b = a ++ s := by
  intro a
  induction a with
  | nil => intro b; simp [esPrefijo]
  | cons x as ih =>
    intro b
    cases b with
    | nil => simp [esPrefijo]
    | cons y bs =>
      rw [esPrefijo, Bool.and_eq_true, beq_iff_eq, ih]
      constructor
      · rintro ⟨rfl, s, rfl⟩
        exact ⟨s, rfl⟩
      · rintro ⟨s, hs⟩
        injection hs with h1 h2
        exact ⟨h1.symm, s, h2⟩

theorem esPrefijo_refl (a : List Bool) : esPrefijo a a = true :=
  (esPrefijo_iff a a).mpr ⟨[], by simp⟩

theorem generar_codigos_libre : ∀ (t : NodoHuffman) (cur : List Bool),
    (hojas t).Nodup →
    ∀ p q, p ∈ generar_codigos t cur → q ∈ generar_codigos t cur →
      p.1 ≠ q.1 → esPrefijo p.2 q.2 = false := by
  intro t
  induction t with
  | leaf s f =>
    intro cur hnd p q hp hq hpq
    rcases List.mem_singleton.mp hp with rfl
    rcases List.mem_singleton.mp hq with rfl
    exact absurd rfl hpq
  | node f l r ihl ihr =>
    intro cur hnd p q hp hq hpq
    simp only [hojas] at hnd
    rw [List.nodup_append] at hnd
    obtain ⟨hndl, hndr, hdisj⟩ := hnd
    rw [generar_codigos] at hp hq
    rcases List.mem_append.mp hp with hp | hp <;>
      rcases List.mem_append.mp hq with hq | hq
    · exact ihl _ hndl p q hp hq hpq
    · obtain ⟨s1, hs1⟩ := generar_codigos_extend l (cur ++ [false]) p hp
      obtain ⟨s2, hs2⟩ := generar_codigos_extend r (cur ++ [true]) q hq
      by_contra hcon
      rw [Bool.not_eq_false, esPrefijo_iff] at hcon
      obtain ⟨s, hs⟩ := hcon
      rw [hs1, hs2, List.append_assoc, List.append_assoc, List.append_assoc] at hs
      have := List.append_cancel_left hs
      simp at this
    · obtain ⟨s1, hs1⟩ := generar_codigos_extend r (cur ++ [true]) p hp
      obtain ⟨s2, hs2⟩ := generar_codigos_extend l (cur ++ [false]) q hq
      by_contra hcon
      rw [Bool.not_eq_false, esPrefijo_iff] at hcon
      obtain ⟨s, hs⟩ := hcon
      rw [hs1, hs2, List.append_assoc, List.append_assoc, List.append_assoc] at hs
      have := List.append_cancel_left hs
      simp at this
    · exact ihr _ hndr p q hp hq hpq

/-! ### Python dict lookups on association lists -/

theorem dictGet_mem {κ ν : Type} [DecidableEq κ] :
    ∀ (l : List (κ × ν)) (k : κ) (v : ν), dictGet k l = some v → (k, v) ∈ l := by
  intro l
  induction l with
  | nil => intro k v h; exact absurd h (by rw [dictGet]; simp)
  | cons p t ih =>
    intro k v h
    obtain ⟨a, b⟩ := p
    rw [dictGet] at h
    by_cases hk : k = a
    · rw [if_pos hk] at h
      subst hk
      rw [Option.some.inj h]
      exact List.mem_cons_self _ _
    · rw [if_neg hk] at h
      exact List.mem_cons_of_mem _ (ih k v h)

theorem dictGet_of_mem_nodup {κ ν : Type} [DecidableEq κ] :
    ∀ (l : List (κ × ν)) (k : κ) (v : ν), (l.map Prod.fst).Nodup →
      (k, v) ∈ l → dictGet k l = some v := by
  intro l
  induction l with
  | nil => intro k v hnd h; exact absurd h (List.not_mem_nil _)
  | cons p t ih =>
    intro k v hnd h
    obtain ⟨a, b⟩ := p
    rw [List.map_cons, List.nodup_cons] at hnd
    obtain ⟨hna, hnd⟩ := hnd
    rcases List.mem_cons.mp h with heq | hmem
    · rw [Prod.mk.injEq] at heq
      obtain ⟨rfl, rfl⟩ := heq
      rw [dictGet, if_pos rfl]
    · have hk : k ≠ a := by
        rintro rfl
        exact hna (List.mem_map.mpr ⟨(k, v), hmem, rfl⟩)
      rw [dictGet, if_neg hk]
      exact ih k v hnd hmem

theorem dictGet_unique {κ ν : Type} [DecidableEq κ] :
    ∀ (l : List (κ × ν)) (k : κ) (v : ν), (k, v) ∈ l →
      (∀ v', (k, v') ∈ l → v' = v) → dictGet k l = some v := by
  intro l
  induction l with
  | nil => intro k v h hu; exact absurd h (List.not_mem_nil _)
  | cons p t ih =>
    intro k v h hu
    obtain ⟨a, b⟩ := p
    by_cases hk : k = a
    · subst hk
      rw [dictGet, if_pos rfl]
      rw [hu b (List.mem_cons_self _ _)]
    · rw [dictGet, if_neg hk]
      have hmem : (k, v) ∈ t := by
        rcases List.mem_cons.mp h with heq | hm
        · rw [Prod.mk.injEq] at heq
          exact absurd heq.1 hk
        · exact hm
      exact ih k v hmem fun v' hv' => hu v' (List.mem_cons_of_mem _ hv')

theorem entry_unique {κ ν : Type} [DecidableEq κ] {l : List (κ × ν)}
    (hnd : (l.map Prod.fst).Nodup) {k : κ} {v1 v2 : ν}
    (h1 : (k, v1) ∈ l) (h2 : (k, v2) ∈ l) : v1 = v2 := by
  have e1 := dictGet_of_mem_nodup l k v1 hnd h1
  have e2 := dictGet_of_mem_nodup l k v2 hnd h2
  rw [e1] at e2
  exact Option.some.inj e2

/-! ### Packing to bytes and unpacking back -/

theorem byteToBits_bitsToByte : ∀ (b0 b1 b2 b3 b4 b5 b6 b7 : Bool),
    byteToBits (bitsToByte [b0, b1, b2, b3, b4, b5, b6, b7])
      = [b0, b1, b2, b3, b4, b5, b6, b7] := by decide

theorem byteToBits_length (byte : Nat) : (byteToBits byte).length = 8 := by
  rw [byteToBits]
  simp

theorem unpackBits_length (bytes : List Nat) :
    (unpackBits bytes).length = 8 * bytes.length := by
  induction bytes with
  | nil => rfl
  | cons x t ih =>
    rw [unpackBits, List.flatMap_cons] at *
    rw [List.length_append, byteToBits_length, ih]
    simp
    omega

theorem unpackBits_pack_aux : ∀ (n : Nat) (bits : List Bool), bits.length ≤ n →
    bits.length % 8 = 0 → unpackBits (pack bits) = bits := by
  intro n
  induction n with
  | zero =>
    intro bits h1 h2
    have : bits = [] := List.eq_nil_of_length_eq_zero (by omega)
    subst this
    rfl
  | succ n ih =>
    intro bits h1 h2
    rcases bits with _ | ⟨b0, bits⟩
    · rfl
    rcases bits with _ | ⟨b1, bits⟩
    · simp at h2
    rcases bits with _ | ⟨b2, bits⟩
    · simp at h2
    rcases bits with _ | ⟨b3, bits⟩
    · simp at h2
    rcases bits with _ | ⟨b4, bits⟩
    · simp at h2
    rcases bits with _ | ⟨b5, bits⟩
    · simp at h2
    rcases bits with _ | ⟨b6, bits⟩
    · simp at h2
    rcases bits with _ | ⟨b7, bits⟩
    · simp at h2
    rw [pack, unpackBits, List.flatMap_cons, byteToBits_bitsToByte]
    have hlen : bits.length ≤ n := by
      simp at h1
      omega
    have hmod : bits.length % 8 = 0 := by
      simp at h2
      omega
    have := ih bits hlen hmod
    rw [unpackBits] at this
    rw [this]
    rfl

theorem unpackBits_pack (bits : List Bool) (h : bits.length % 8 = 0) :
    unpackBits (pack bits) = bits :=
  unpackBits_pack_aux bits.length bits le_rfl h

theorem pack_length (bits : List Bool) (h : bits.length % 8 = 0) :
    8 * (pack bits).length = bits.length := by
  rw [← unpackBits_length, unpackBits_pack bits h]

theorem foldl_append_eq_flatMap {α β : Type} (f : α → List β) :
    ∀ (l : List α) (init : List β),
      l.foldl (fun acc x => acc ++ f x) init = init ++ l.flatMap f := by
  intro l
  induction l with
  | nil => intro init; simp
  | cons x t ih =>
    intro init
    rw [List.foldl_cons, ih, List.flatMap_cons, List.append_assoc]

/-! ### The greedy decoding loop of `descomprimir` -/

theorem decode_step_code {inv : List (List Bool × Char)} {c : Char} {bc : List Bool}
    (hfull : dictGet bc inv = some c)
    (hparcial : ∀ p s, bc = p ++ s → p ≠ [] → s ≠ [] → dictGet p inv = none) :
    ∀ (suf pre : List Bool), bc = pre ++ suf → suf ≠ [] →
      ∀ (out : List Char) (rest : List Bool),
        (suf ++ rest).foldl (decodeStep inv) (out, pre) =
          rest.foldl (decodeStep inv) (out ++ [c], []) := by
  intro suf
  induction suf with
  | nil => intro pre h hsne; exact absurd rfl hsne
  | cons b s ih =>
    intro pre h hsne out rest
    rw [List.cons_append, List.foldl_cons]
    by_cases hs : s = []
    · subst hs
      have hacc : pre ++ [b] = bc := h.symm
      simp only [decodeStep, hacc, hfull]
      rw [List.nil_append]
    · have hpre : bc = (pre ++ [b]) ++ s := by
        rw [h, List.append_assoc]
        rfl
      have hnone : dictGet (pre ++ [b]) inv = none :=
        hparcial (pre ++ [b]) s hpre (by simp) hs
      simp only [decodeStep, hnone]
      exact ih (pre ++ [b]) hpre hs out rest

theorem decode_flatMap {tabla : List (Char × List Bool)}
    {inv : List (List Bool × Char)} :
    ∀ (txt out : List Char),
      (∀ c ∈ txt, ∃ bc, dictGet c tabla = some bc ∧ bc ≠ [] ∧
        dictGet bc inv = some c ∧
        (∀ p s, bc = p ++ s → p ≠ [] → s ≠ [] → dictGet p inv = none)) →
      ((txt.flatMap fun c => (dictGet c tabla).getD []).foldl
          (decodeStep inv) (out, [])).1 = out ++ txt := by
  intro txt
  induction txt with
  | nil => intro out h; simp
  | cons c t ih =>
    intro out h
    obtain ⟨bc, hbc, hbcne, hfull, hparcial⟩ := h c (List.mem_cons_self _ _)
    rw [List.flatMap_cons, hbc, Option.getD_some]
    rw [decode_step_code hfull hparcial bc [] rfl hbcne out _]
    rw [ih (out ++ [c]) (fun c' hc' => h c' (List.mem_cons_of_mem _ hc'))]
    simp

/-! ### The shape of a compressed blob -/

theorem isEmpty_false_of_ne_nil {α : Type} {l : List α} (h : l ≠ []) :
    l.isEmpty = false := by
  cases l with
  | nil => exact absurd rfl h
  | cons x t => rfl

theorem codeBits_eq {texto : List Char} {raiz : NodoHuffman}
    (hraiz : construir_arbol texto = some raiz) :
    codeBits texto
      = texto.flatMap fun c => (dictGet c (generar_codigos raiz [])).getD [] := by
  rw [codeBits]
  simp only [hraiz]

theorem comprimir_spec {texto : List Char} {raiz : NodoHuffman}
    (hne : texto ≠ []) (hraiz : construir_arbol texto = some raiz) :
    comprimir texto =
      ((if (codeBits texto).length % 8 = 0 then 0 else 8 - (codeBits texto).length % 8) ::
        pack (codeBits texto ++ List.replicate
          (if (codeBits texto).length % 8 = 0 then 0
           else 8 - (codeBits texto).length % 8) false),
       generar_codigos raiz []) := by
  rw [comprimir, if_neg (by simp [isEmpty_false_of_ne_nil hne])]
  simp only [hraiz]
  rw [foldl_append_eq_flatMap (fun c => (dictGet c (generar_codigos raiz [])).getD [])
    texto []]
  rw [List.nil_append, ← codeBits_eq hraiz]

theorem padding_facts (n : Nat) :
    (if n % 8 = 0 then 0 else 8 - n % 8) ≤ 7 ∧
    (n + (if n % 8 = 0 then 0 else 8 - n % 8)) % 8 = 0 := by
  split
  · next h => exact ⟨by omega, by omega⟩
  · next h =>
    have h8 : n % 8 < 8 := Nat.mod_lt _ (by omega)
    exact ⟨by omega, by omega⟩

theorem descomprimir_cons (padding : Nat) (datos_bits : List Nat)
    (codigos : List (Char × List Bool)) (hcne : codigos ≠ []) :
    descomprimir (padding :: datos_bits) codigos =
      ((if padding > 0
          then (unpackBits datos_bits).take ((unpackBits datos_bits).length - padding)
          else unpackBits datos_bits).foldl
        (decodeStep ((codigos.map fun kv => (kv.2, kv.1)).reverse)) ([], [])).1 := by
  rw [descomprimir, if_neg (by simp [isEmpty_false_of_ne_nil hcne])]
  show ((if padding > 0
      then (datos_bits.foldl (fun acc byte => acc ++ byteToBits byte) []).take
        ((datos_bits.foldl (fun acc byte => acc ++ byteToBits byte) []).length - padding)
      else datos_bits.foldl (fun acc byte => acc ++ byteToBits byte) []).foldl
      (decodeStep ((codigos.map fun kv => (kv.2, kv.1)).reverse)) ([], [])).1 = _
  rw [foldl_append_eq_flatMap byteToBits datos_bits [], List.nil_append]
  rfl

/-! ### The code table seen by the decoder -/

theorem two_le_length_of_mem {α : Type} {a b : α} {l : List α} (ha : a ∈ l)
    (hb : b ∈ l) (hab : a ≠ b) : 2 ≤ l.length := by
  cases l with
  | nil => exact absurd ha (List.not_mem_nil a)
  | cons x t =>
    cases t with
    | nil =>
      rcases List.mem_singleton.mp ha with rfl
      rcases List.mem_singleton.mp hb with rfl
      exact absurd rfl hab
    | cons y u =>
      rw [List.length_cons, List.length_cons]
      omega

theorem codigo_ne_nil {f : Nat} {l r : NodoHuffman} {p : Char × List Bool}
    (hp : p ∈ generar_codigos (.node f l r) []) : p.2 ≠ [] := by
  rw [generar_codigos] at hp
  rcases List.mem_append.mp hp with h | h
  · obtain ⟨s, hs⟩ := generar_codigos_extend l ([] ++ [false]) p h
    rw [hs]
    simp
  · obtain ⟨s, hs⟩ := generar_codigos_extend r ([] ++ [true]) p h
    rw [hs]
    simp

theorem inv_mem (tabla : List (Char × List Bool)) (b : List Bool) (c : Char) :
    (b, c) ∈ (tabla.map fun kv => (kv.2, kv.1)).reverse ↔ (c, b) ∈ tabla := by
  rw [List.mem_reverse, List.mem_map]
  constructor
  · rintro ⟨⟨c', b'⟩, hm, heq⟩
    simp only [Prod.mk.injEq] at heq
    obtain ⟨rfl, rfl⟩ := heq
    exact hm
  · intro hm
    exact ⟨(c, b), hm, rfl⟩

theorem tabla_spec {texto : List Char} {raiz : NodoHuffman} {a b : Char}
    (ha : a ∈ texto) (hb : b ∈ texto) (hab : a ≠ b)
    (hraiz : construir_arbol texto = some raiz)
    (hperm : (hojas raiz).Perm (claves texto)) :
    ∀ c ∈ texto, ∃ bc, dictGet c (generar_codigos raiz []) = some bc ∧ bc ≠ [] ∧
      dictGet bc (((generar_codigos raiz []).map fun kv => (kv.2, kv.1)).reverse)
        = some c ∧
      (∀ p s, bc = p ++ s → p ≠ [] → s ≠ [] →
        dictGet p (((generar_codigos raiz []).map fun kv => (kv.2, kv.1)).reverse)
          = none) := by
  have hnd : (hojas raiz).Nodup := (hperm.nodup_iff).mpr (claves_nodup texto)
  have hkeys := generar_codigos_keys raiz []
  have hndk : ((generar_codigos raiz []).map Prod.fst).Nodup := by
    rw [hkeys]; exact hnd
  have hlen2 : 2 ≤ (hojas raiz).length := by
    rw [hperm.length_eq]
    exact two_le_length_of_mem ((mem_claves texto a).mpr ha)
      ((mem_claves texto b).mpr hb) hab
  intro c hc
  have hch : c ∈ hojas raiz := hperm.mem_iff.mpr ((mem_claves texto c).mpr hc)
  have hck : c ∈ (generar_codigos raiz []).map Prod.fst := by
    rw [hkeys]; exact hch
  obtain ⟨⟨c', bc⟩, hmem, hfst⟩ := List.mem_map.mp hck
  obtain rfl : c' = c := hfst
  refine ⟨bc, dictGet_of_mem_nodup _ c' bc hndk hmem, ?_, ?_, ?_⟩
  · cases raiz with
    | leaf s f => simp [hojas] at hlen2
    | node f l r => exact codigo_ne_nil hmem
  · apply dictGet_unique
    · exact (inv_mem _ _ _).mpr hmem
    · intro c'' hinv
      have hmem'' : (c'', bc) ∈ generar_codigos raiz [] :=
        (inv_mem _ _ _).mp hinv
      by_contra hne''
      have hff := generar_codigos_libre raiz [] hnd (c'', bc) (c', bc) hmem'' hmem
        (by simpa using hne'')
      rw [esPrefijo_refl] at hff
      exact absurd hff (by decide)
  · intro p s hps hpne hsne
    rcases hdg : dictGet p (((generar_codigos raiz []).map fun kv =>
        (kv.2, kv.1)).reverse) with _ | c2
    · exact hdg
    · exfalso
      have hmem2 : (c2, p) ∈ generar_codigos raiz [] :=
        (inv_mem _ _ _).mp (dictGet_mem _ _ _ hdg)
      by_cases hc2 : c2 = c'
      · subst hc2
        have hpb : p = bc := entry_unique hndk hmem2 hmem
        have hlenps := congrArg List.length hps
        rw [hpb, List.length_append] at hlenps
        have : s.length = 0 := by omega
        exact hsne (List.eq_nil_of_length_eq_zero this)
      · have hff := generar_codigos_libre raiz [] hnd (c2, p) (c', bc) hmem2 hmem
          (by simpa using hc2)
        have htrue : esPrefijo p bc = true := (esPrefijo_iff p bc).mpr ⟨s, hps⟩
        rw [htrue] at hff
        exact absurd hff (by decide)

/-! ### Round trip for texts with at least two distinct symbols -/

theorem roundtrip_master {texto : List Char} {a b : Char} (ha : a ∈ texto)
    (hb : b ∈ texto) (hab : a ≠ b) :
    descomprimir (comprimir texto).1 (comprimir texto).2 = texto := by
  have hne : texto ≠ [] := by
    rintro rfl
    exact (List.not_mem_nil a) ha
  obtain ⟨raiz, hraiz, hperm⟩ := construir_arbol_spec hne
  have hcomp := comprimir_spec hne hraiz
  set B := codeBits texto with hB
  set P : Nat := if B.length % 8 = 0 then 0 else 8 - B.length % 8 with hP
  have hPfacts : P ≤ 7 ∧ (B.length + P) % 8 = 0 := padding_facts B.length
  have hlen8 : (B ++ List.replicate P false).length % 8 = 0 := by
    rw [List.length_append, List.length_replicate]
    exact hPfacts.2
  have hdecode : (B.foldl (decodeStep (((generar_codigos raiz []).map fun kv =>
      (kv.2, kv.1)).reverse)) ([], [])).1 = texto := by
    rw [hB, codeBits_eq hraiz]
    rw [decode_flatMap texto [] (tabla_spec ha hb hab hraiz hperm)]
    rfl
  rw [hcomp]
  rw [descomprimir_cons P (pack (B ++ List.replicate P false)) _
    (generar_codigos_ne_nil raiz [])]
  rw [unpackBits_pack _ hlen8]
  rcases Nat.eq_zero_or_pos P with hP0 | hPpos
  · rw [hP0]
    rw [if_neg (by omega)]
    have hrep : List.replicate 0 false = ([] : List Bool) := rfl
    rw [hrep, List.append_nil]
    exact hdecode
  · rw [if_pos hPpos]
    have htake : (B ++ List.replicate P false).take
        ((B ++ List.replicate P false).length - P) = B := by
      rw [List.length_append, List.length_replicate]
      have h1 : B.length + P - P = B.length := by omega
      rw [h1]
      exact List.take_left B (List.replicate P false)
    rw [htake]
    exact hdecode

/-! ### Claims C1, C6, C7 -/

/-- C1 counterexample: the round trip fails on the single-symbol text
`"A"`: its compressed form is the lone padding byte with an empty code for
`'A'`, and decompressing returns the empty text, not `"A"`. -/
theorem C1_cex :
    comprimir ['A'] = ([0], [('A', [])]) ∧
    descomprimir (comprimir ['A']).1 (comprimir ['A']).2 = [] ∧
    descomprimir (comprimir ['A']).1 (comprimir ['A']).2 ≠ ['A'] :=
  ⟨by decide, by decide, by decide⟩

/-- C1 (amended): for every text containing at least two distinct symbols,
decompressing the blob and code table produced by `comprimir` returns the
original text.  (Texts over a single distinct symbol decompress to the
empty text instead.) -/
theorem C1_thm (texto : List Char) (a b : Char) (ha : a ∈ texto) (hb : b ∈ texto)
    (hab : a ≠ b) :
    descomprimir (comprimir texto).1 (comprimir texto).2 = texto :=
  roundtrip_master ha hb hab

/-- Witness for C1 (amended) at the text `"AAAB"`. -/
theorem C1_wit :
    descomprimir (comprimir ['A', 'A', 'A', 'B']).1 (comprimir ['A', 'A', 'A', 'B']).2
      = ['A', 'A', 'A', 'B'] :=
  C1_thm ['A', 'A', 'A', 'B'] 'A' 'B' (by decide) (by decide) (by decide)

/-- C6: for every non-empty text, the blob starts with a padding count of
at most 7, the concatenated code bits plus that padding fill the payload
to a multiple of 8 exactly, and the payload unpacks (MSB-first) to the
concatenated per-symbol codes followed by exactly that many zero bits. -/
theorem C6_thm (texto : List Char) (hne : texto ≠ []) :
    (comprimir texto).1.headD 0 ≤ 7 ∧
    ((codeBits texto).length + (comprimir texto).1.headD 0) % 8 = 0 ∧
    8 * ((comprimir texto).1.length - 1)
      = (codeBits texto).length + (comprimir texto).1.headD 0 ∧
    unpackBits (comprimir texto).1.tail
      = codeBits texto ++ List.replicate ((comprimir texto).1.headD 0) false := by
  obtain ⟨raiz, hraiz, hperm⟩ := construir_arbol_spec hne
  have hcomp := comprimir_spec hne hraiz
  rw [hcomp]
  set B := codeBits texto with hB
  set P : Nat := if B.length % 8 = 0 then 0 else 8 - B.length % 8 with hP
  have hPfacts : P ≤ 7 ∧ (B.length + P) % 8 = 0 := padding_facts B.length
  have hlen8 : (B ++ List.replicate P false).length % 8 = 0 := by
    rw [List.length_append, List.length_replicate]
    exact hPfacts.2
  refine ⟨by simpa using hPfacts.1, by simpa using hPfacts.2, ?_, ?_⟩
  · show 8 * ((pack (B ++ List.replicate P false)).length + 1 - 1) = B.length + P
    rw [Nat.add_sub_cancel, pack_length _ hlen8, List.length_append,
      List.length_replicate]
  · show unpackBits (pack (B ++ List.replicate P false))
        = B ++ List.replicate P false
    exact unpackBits_pack _ hlen8

/-- Witness for C6 at the text `"AAAB"`: the padding byte is at most 7. -/
theorem C6_wit : (comprimir ['A', 'A', 'A', 'B']).1.headD 0 ≤ 7 :=
  (C6_thm ['A', 'A', 'A', 'B'] (by decide)).1

/-- C7: for every text with at least two distinct symbols, the code table
generated for the built tree is prefix-free: the codes of two distinct
symbols are never prefixes of one another. -/
theorem C7_thm (texto : List Char) (raiz : NodoHuffman) (p q : Char × List Bool)
    (hlen : 2 ≤ (claves texto).length) (hraiz : construir_arbol texto = some raiz)
    (hp : p ∈ generar_codigos raiz []) (hq : q ∈ generar_codigos raiz [])
    (hpq : p.1 ≠ q.1) : esPrefijo p.2 q.2 = false := by
  have hne : texto ≠ [] := by
    rintro rfl
    simp [claves] at hlen
  obtain ⟨raiz', hraiz', hperm⟩ := construir_arbol_spec hne
  rw [hraiz] at hraiz'
  obtain rfl := Option.some.inj hraiz'
  have hnd : (hojas raiz).Nodup := (hperm.nodup_iff).mpr (claves_nodup texto)
  exact generar_codigos_libre raiz [] hnd p q hp hq hpq

/-- Witness for C7 at `"AAAB"`: neither of the two generated codes is a
prefix of the other. -/
theorem C7_wit :
    esPrefijo [false] [true] = false ∧ esPrefijo [true] [false] = false :=
  ⟨C7_thm ['A', 'A', 'A', 'B'] (.node 4 (.leaf 'B' 1) (.leaf 'A' 3))
      ('B', [false]) ('A', [true]) (by decide) (by decide) (by decide) (by decide)
      (by decide),
   C7_thm ['A', 'A', 'A', 'B'] (.node 4 (.leaf 'B' 1) (.leaf 'A' 3))
      ('A', [true]) ('B', [false]) (by decide) (by decide) (by decide) (by decide)
      (by decide)⟩

/-! ### Claim C8: the concrete scenario for `"AAAB"` -/

/-- C8 counterexample: on `"AAAB"` the built tree puts `'B'` on the left
(first heap pop) and `'A'` on the right, so `generar_codigos` assigns
`'A'` the code `"1"`, not `"0"` as the claim states. -/
theorem C8_cex :
    construir_arbol ['A', 'A', 'A', 'B']
      = some (.node 4 (.leaf 'B' 1) (.leaf 'A' 3)) ∧
    dictGet 'A' (generar_codigos (.node 4 (.leaf 'B' 1) (.leaf 'A' 3)) [])
      = some [true] ∧
    some [true] ≠ some [false] :=
  ⟨by decide, by decide, by decide⟩

/-- C8 (amended): for `"AAAB"`, the frequencies are `{A: 3, B: 1}`, the
tree is a single internal node with leaf `'B'` on the left and leaf `'A'`
on the right, so the codes are `B = "0"` and `A = "1"` (swapped relative
to the original claim), and decompressing the compressed blob returns
`"AAAB"`. -/
theorem C8_thm :
    frecuencias ['A', 'A', 'A', 'B'] = [('A', 3), ('B', 1)] ∧
    construir_arbol ['A', 'A', 'A', 'B']
      = some (.node 4 (.leaf 'B' 1) (.leaf 'A' 3)) ∧
    generar_codigos (.node 4 (.leaf 'B' 1) (.leaf 'A' 3)) []
      = [('B', [false]), ('A', [true])] ∧
    descomprimir (comprimir ['A', 'A', 'A', 'B']).1 (comprimir ['A', 'A', 'A', 'B']).2
      = ['A', 'A', 'A', 'B'] :=
  ⟨by decide, by decide, by decide, by decide⟩

/-! ### Claims C3 and C10: the degenerate single-symbol text -/

theorem claves_single {texto : List Char} {a : Char} (hne : texto ≠ [])
    (hall : ∀ c ∈ texto, c = a) : claves texto = [a] := by
  have hnd := claves_nodup texto
  cases hcx : claves texto with
  | nil => exact absurd hcx (claves_ne_nil hne)
  | cons x t =>
    have hx : x = a := hall x ((mem_claves texto x).mp
      (by rw [hcx]; exact List.mem_cons_self x t))
    cases t with
    | nil => rw [hx]
    | cons y u =>
      exfalso
      have hy : y = a := hall y ((mem_claves texto y).mp
        (by rw [hcx]; exact List.mem_cons_of_mem x (List.mem_cons_self y u)))
      rw [hcx, List.nodup_cons] at hnd
      exact hnd.1 (by rw [hx, ← hy]; exact List.mem_cons_self y u)

theorem frecuencias_single {texto : List Char} {a : Char} (hne : texto ≠ [])
    (hall : ∀ c ∈ texto, c = a) :
    frecuencias texto = [(a, texto.length)] := by
  rw [frecuencias, claves_single hne hall]
  simp only [List.map_cons, List.map_nil]
  have hcount : texto.count a = texto.length :=
    List.count_eq_length.mpr fun b hb => (hall b hb).symm
  rw [hcount]

theorem construir_arbol_single {texto : List Char} {a : Char} (hne : texto ≠ [])
    (hall : ∀ c ∈ texto, c = a) :
    construir_arbol texto = some (.leaf a texto.length) := by
  rw [construir_arbol, if_neg (by simp [isEmpty_false_of_ne_nil hne]),
    frecuencias_single hne hall]
  rfl

theorem foldl_codes_nil : ∀ (texto : List Char) (a : Char) (init : List Bool),
    (∀ c ∈ texto, c = a) →
    texto.foldl (fun b c => b ++ (dictGet c [(a, ([] : List Bool))]).getD []) init
      = init := by
  intro texto
  induction texto with
  | nil => intro a init h; rfl
  | cons c t ih =>
    intro a init h
    rw [List.foldl_cons]
    have hc : c = a := h c (List.mem_cons_self _ _)
    subst hc
    rw [dictGet, if_pos rfl]
    simp only [Option.getD_some, List.append_nil]
    exact ih c init fun c' hc' => h c' (List.mem_cons_of_mem _ hc')

theorem comprimir_single {texto : List Char} {a : Char} (hne : texto ≠ [])
    (hall : ∀ c ∈ texto, c = a) :
    comprimir texto = ([0], [(a, [])]) := by
  rw [comprimir, if_neg (by simp [isEmpty_false_of_ne_nil hne])]
  simp only [construir_arbol_single hne hall]
  simp only [generar_codigos]
  rw [foldl_codes_nil texto a [] hall]
  rfl

/-- C3 counterexample: for the single-symbol text `"A"` the tree root is a
leaf, but `generar_codigos` assigns `'A'` the empty code `""`, not the
one-character code `"0"` the claim states, so compression emits zero bits
per symbol. -/
theorem C3_cex :
    construir_arbol ['A'] = some (.leaf 'A' 1) ∧
    generar_codigos (.leaf 'A' 1) [] = [('A', [])] ∧
    dictGet 'A' (generar_codigos (.leaf 'A' 1) []) ≠ some [false] :=
  ⟨by decide, by decide, by decide⟩

/-- C3 (amended): for every non-empty text with exactly one distinct
symbol, the built tree root is the leaf carrying that symbol, and
`generar_codigos` assigns it the empty code, so compression emits zero
bits per symbol. -/
theorem C3_thm (texto : List Char) (a : Char) (hne : texto ≠ [])
    (hall : ∀ c ∈ texto, c = a) :
    construir_arbol texto = some (.leaf a texto.length) ∧
    generar_codigos (.leaf a texto.length) [] = [(a, [])] :=
  ⟨construir_arbol_single hne hall, rfl⟩

/-- Witness for C3 (amended) at the text `"AAA"`. -/
theorem C3_wit :
    construir_arbol ['A', 'A', 'A'] = some (.leaf 'A' 3) ∧
    generar_codigos (.leaf 'A' 3) [] = [('A', [])] :=
  C3_thm ['A', 'A', 'A'] 'A' (by decide) (by decide)

/-- C10: for every non-empty text with a single distinct symbol,
`comprimir` returns the one-byte blob `[0]` (padding header only, empty
payload) and the table mapping the symbol to the empty code, and
`descomprimir` on that blob and table returns the empty text. -/
theorem C10_thm (texto : List Char) (a : Char) (hne : texto ≠ [])
    (hall : ∀ c ∈ texto, c = a) :
    comprimir texto = ([0], [(a, [])]) ∧
    descomprimir (comprimir texto).1 (comprimir texto).2 = [] := by
  have hc := comprimir_single hne hall
  refine ⟨hc, ?_⟩
  rw [hc]
  rfl

/-- Witness for C10 at the text `"AAA"`. -/
theorem C10_wit :
    comprimir ['A', 'A', 'A'] = ([0], [('A', [])]) ∧
    descomprimir (comprimir ['A', 'A', 'A']).1 (comprimir ['A', 'A', 'A']).2 = [] :=
  C10_thm ['A', 'A', 'A'] 'A' (by decide) (by decide)

end SistemaSeguro
